import Mathlib

/-!
Shallow embedding of `src/main.rs` of the Hanoi repository: a directory-scoped
text-search daemon with a filter engine, a concurrent bulk indexer, a
filesystem-event maintenance path, a length-prefixed request codec and a
federated query protocol.

Modelling conventions:
* Rust `String`/`&str` values are Lean `String`s; every string operation the
  source performs byte-wise acts here on the character list (all delimiters in
  the source are one-byte ASCII, where bytes and characters agree).
* File contents and search terms in the word-search routine are `List Nat`
  byte sequences, since `Indexer2::find` indexes `line.as_bytes()`.
* Filesystem paths are `List String` component lists relative to the server
  root; the source strips the root with `Path::strip_prefix` before matching,
  so only the relative part is ever consulted.  A path outside the root (where
  `strip_prefix` fails) is modelled as `none`.
-/

namespace Hanoi

/-! ## String helpers (models of the Rust `str` operations the source uses) -/

/-- Rust `str::starts_with` for a literal pattern. -/
def strStartsWith (s pat : String) : Bool := pat.toList.isPrefixOf s.toList

/-- Rust `str::ends_with` for a literal pattern. -/
def strEndsWith (s pat : String) : Bool := pat.toList.isSuffixOf s.toList

/-- Rust `str::contains` for a literal pattern: substring containment. -/
def strContains (s pat : String) : Bool := decide (pat.toList <:+: s.toList)

/-- Models `&line[1..]` (the characters stripped in `parse_filter` are
one-byte ASCII, so dropping one byte drops one character). -/
def strDropFirst (s : String) : String := ⟨s.toList.drop 1⟩

/-- Models `&line[0..line.len() - 1]` for a nonempty `line` ending in a
one-byte ASCII character. -/
def strDropLast (s : String) : String := ⟨s.toList.dropLast⟩

/-- `PathBuf::display` of a relative path: components joined by `/`
(the non-Windows convention, matching the `#[cfg]` branch the source takes
outside Windows). -/
def relStr : List String → String
  | [] => ""
  | [c] => c
  | c :: rest => c ++ "/" ++ relStr rest

/-! ## Filter engine (main.rs lines 37-43, 100-129, 363-396) -/

/-- `struct Filter` (main.rs lines 37-43). -/
structure Filter where
  should_include : Bool
  should_start_with : Bool
  should_end_with : Bool
  only_dir : Bool
  pattern : String
deriving DecidableEq, Repr

/-- `pattern.replace("\\", "/")`: the non-Windows branch of the separator
normalization at the end of `parse_filter` (main.rs lines 389-393).  Pattern
and replacement are single ASCII characters, so `replace` is a character map. -/
def sepNormalize (s : String) : String :=
  ⟨s.toList.map fun c => if c = '\\' then '/' else c⟩

/-- `parse_filter` (main.rs lines 363-396).  The source pushes the parsed rule
onto a `&mut Vec<Filter>`; the rule itself is returned here and appended by the
caller. -/
def parse_filter (l : String) : Filter :=
  let should_include := !strStartsWith l "!"
  let line1 := if strStartsWith l "!" then strDropFirst l else l
  let should_start_with := !strStartsWith line1 "*"
  let line2 := if strStartsWith line1 "*" then strDropFirst line1 else line1
  let should_end_with := !strEndsWith line2 "*"
  let line3 := if strEndsWith line2 "*" then strDropLast line2 else line2
  let only_dir := strEndsWith line3 "/"
  let line4 := if strEndsWith line3 "/" then strDropLast line3 else line3
  { should_include, should_start_with, should_end_with, only_dir,
    pattern := sepNormalize line4 }

/-- One iteration of the rule loop in `filter_path` (main.rs lines 106-126),
acting on the accumulated `result`.  The `only_dir` skip is commented out in
the source (lines 108-110), so `only_dir` is not consulted here either. -/
def filter_step (rel : String) (result : Bool) (f : Filter) : Bool :=
  if f.should_start_with && f.should_end_with then
    if f.pattern == rel then f.should_include else result
  else if f.should_start_with || f.should_end_with then
    if f.should_start_with && strStartsWith rel f.pattern then f.should_include
    else if f.should_end_with && strEndsWith rel f.pattern then f.should_include
    else result
  else
    if strContains rel f.pattern then f.should_include else result

/-- `filter_path` (main.rs lines 100-129).  `rel` is
`path.strip_prefix(root)` rendered as a string; `none` models a failed strip,
in which case the initial `result = is_dir` is returned unchanged. -/
def filter_path (filters : List Filter) (rel : Option String) (is_dir : Bool) : Bool :=
  match rel with
  | none => is_dir
  | some r => filters.foldl (filter_step r) is_dir

/-- The condition under which a rule assigns `result` in `filter_path`:
read off from the three branches of the loop body. -/
def rule_matches (f : Filter) (rel : String) : Bool :=
  if f.should_start_with && f.should_end_with then f.pattern == rel
  else if f.should_start_with || f.should_end_with then
    (f.should_start_with && strStartsWith rel f.pattern)
      || (f.should_end_with && strEndsWith rel f.pattern)
  else strContains rel f.pattern

def demoFilters : List Filter := [parse_filter "*src*", parse_filter "!*.log"]

/-! ## Word-mode search (`Indexer2::find`, main.rs lines 262-294)

`find` iterates `line.as_bytes()`, so this part of the model works on byte
sequences (`List Nat`). -/

/-- `u8::is_ascii_alphanumeric`. -/
def isAsciiAlnum (b : Nat) : Bool :=
  (48 ≤ b && b ≤ 57) || (65 ≤ b && b ≤ 90) || (97 ≤ b && b ≤ 122)

/-- `str::match_indices` for a literal pattern: the start positions of the
leftmost, non-overlapping occurrences, scanning from offset `i`.  An empty
pattern matches at every position, advancing by one, as in Rust.  The `fuel`
argument only makes the recursion structural; each step either stops or
shortens the text, so `text.length + 1` fuel is never exhausted. -/
def matchIndicesFrom (term : List Nat) : Nat → List Nat → Nat → List Nat
  | 0, _, _ => []
  | _ + 1, [], i => if term.isEmpty then [i] else []
  | fuel + 1, c :: rest, i =>
    if term.isPrefixOf (c :: rest) then
      i :: matchIndicesFrom term fuel ((c :: rest).drop (max term.length 1))
             (i + max term.length 1)
    else matchIndicesFrom term fuel rest (i + 1)

/-- `line.match_indices(term)` (positions only; the source ignores the
matched slice). -/
def matchIndices (term line : List Nat) : List Nat :=
  matchIndicesFrom term (line.length + 1) line 0

/-- The occurrence scan of the word-mode branch (main.rs lines 274-280):
`found` becomes true at the first occurrence whose guarded neighbor checks
both fail.  `line.len() - 1` is usize subtraction in the source; it
underflows (and the byte index panics) only for an empty line, which is
reachable only with an empty search term, so `Nat` truncated subtraction
agrees with the source on every nonempty line. -/
def word_found (term line : List Nat) : Bool :=
  (matchIndices term line).any fun pos =>
    !((decide (pos > 0) && isAsciiAlnum (line.getD (pos - 1) 0))
      || (decide (pos + term.length < line.length - 1)
            && isAsciiAlnum (line.getD (pos + term.length) 0)))

/-- The per-line emission decision of `Indexer2::find` (main.rs lines
271-289): the line is written to the reply channel iff it contains the term
and, in word mode, the occurrence scan set `found`. -/
def line_emitted (word : Bool) (term line : List Nat) : Bool :=
  decide (term <:+: line) && (!word || word_found term line)

/-- All start positions at which `term` occurs in `line` (overlapping
included) — the reading of "occurrence" in the specification's word-boundary
rule. -/
def occurrences (term line : List Nat) : List Nat :=
  (List.range (line.length + 1)).filter fun pos => decide (term <+: line.drop pos)

/-- The word-boundary rule as the claim states it: some occurrence has its
present left neighbor non-alphanumeric and its present right neighbor
non-alphanumeric, a missing neighbor at a line edge counting as a
non-alphanumeric boundary. -/
def word_boundary_ok (term line : List Nat) : Bool :=
  (occurrences term line).any fun pos =>
    (decide (pos = 0) || !isAsciiAlnum (line.getD (pos - 1) 0))
      && (decide (pos + term.length = line.length)
            || !isAsciiAlnum (line.getD (pos + term.length) 0))

/-! ## Event handling (`Indexer2::handle_event`, main.rs lines 303-325) -/

/-- The event kinds `handle_event` acts on; all other `notify` kinds fall to
the wildcard arm and are ignored. -/
inductive EvKind where
  | create
  | modify
  | remove
deriving DecidableEq

/-- A snapshot of the disk at event-handling time: `none` — the path is not
(or no longer) a file (`path.is_file()` is false); `some none` — a file whose
`read_to_string` fails; `some (some s)` — a file read as the text `s`. -/
def Disk : Type := List String → Option (Option String)

/-- The in-memory index `Indexer2::files`, as a map from (relative) path to
contents. -/
def Index : Type := List String → Option String

/-- The body of `handle_event` for a single event path (main.rs lines
305-322): Create/Modify re-reads and upserts when the filter passes and the
path is a file; Remove deletes the key when the filter passes *and the path
is still a file on disk* (the `path.is_file()` guard is present on the Remove
arm in the source). -/
def handle_one (filters : List Filter) (disk : Disk) (k : EvKind) (m : Index)
    (p : List String) : Index :=
  match k with
  | .create | .modify =>
    if filter_path filters (some (relStr p)) false && (disk p).isSome then
      match disk p with
      | some (some s) => fun x => if x = p then some s else m x
      | _ => m
    else m
  | .remove =>
    if filter_path filters (some (relStr p)) false && (disk p).isSome then
      fun x => if x = p then none else m x
    else m

/-- `handle_event` (main.rs lines 303-325): the per-path body folded over
`event.paths`. -/
def handle_event (filters : List Filter) (disk : Disk) (k : EvKind)
    (ps : List (List String)) (m : Index) : Index :=
  ps.foldl (handle_one filters disk k) m

/-- The value (if any) an event writes to the index at key `p`: `some v`
means the key is set to `v` (`v = none` deletes it), `none` means the event
leaves the key alone.  Read off from the guards of `handle_one`. -/
def eventWrite (filters : List Filter) (disk : Disk) (k : EvKind)
    (p : List String) : Option (Option String) :=
  match k with
  | .create | .modify =>
    if filter_path filters (some (relStr p)) false && (disk p).isSome then
      match disk p with
      | some (some s) => some (some s)
      | _ => none
    else none
  | .remove =>
    if filter_path filters (some (relStr p)) false && (disk p).isSome then
      some none
    else none

/-- A rule that includes every path: with both anchors cleared, the empty
pattern is a substring of every relative path. -/
def includeAllFilter : Filter :=
  { should_include := true, should_start_with := false, should_end_with := false,
    only_dir := false, pattern := "" }

/-- A one-file disk snapshot used by the event-handling witnesses. -/
def demoDisk : Disk := fun p => if p = ["a.txt"] then some (some "hello") else none

/-! ## Config loader (`server_main`, main.rs lines 410-432) -/

/-- Rust `str::trim` strips Unicode whitespace from both ends; the model
covers the ASCII whitespace characters that occur in config files. -/
def isWhitespaceChar (c : Char) : Bool :=
  c = ' ' || c = '\t' || c = '\r' || c = '\n'

/-- `line.trim()`. -/
def strTrim (s : String) : String :=
  ⟨((s.toList.dropWhile isWhitespaceChar).reverse.dropWhile
      isWhitespaceChar).reverse⟩

/-- The `.hanoi` parsing loop of `server_main` (main.rs lines 414-431), over
the list of lines of the config file, carrying the current section name and
the two accumulators.  The source's `let line = line.trim()` is inlined as
`strTrim l`; `&line[1..line.len() - 1]` becomes dropping the first and last
character (both are one-byte ASCII brackets there).  Lines in an unrecognized
section — including the initial section `""` — are only logged and skipped
(the wildcard `match` arm, line 429). -/
def parse_config_lines :
    List String → String → List Filter → List String → List Filter × List String
  | [], _, filters, dirs => (filters, dirs)
  | l :: rest, sect, filters, dirs =>
    if (strTrim l).toList.isEmpty || strStartsWith (strTrim l) "#" then
      parse_config_lines rest sect filters dirs
    else if strStartsWith (strTrim l) "[" && strEndsWith (strTrim l) "]" then
      parse_config_lines rest ⟨((strTrim l).toList.drop 1).dropLast⟩ filters dirs
    else if sect == "filters" then
      parse_config_lines rest sect (filters ++ [parse_filter (strTrim l)]) dirs
    else if sect == "additional_dirs" then
      parse_config_lines rest sect filters (dirs ++ [strTrim l])
    else
      parse_config_lines rest sect filters dirs

/-! ## Work queue and worker loop (`Indexer2::build`, main.rs lines 182-260) -/

/-- `struct WorkQueue` (main.rs lines 45-48); queue entries are paths. -/
structure WorkQueue where
  paths : List (List String)
  has_stopped : Bool

/-- `files_per_thread` (main.rs line 187): the per-batch pop cap. -/
def files_per_thread : Nat := 1024

/-- What one worker iteration observes and produces under the queue lock
(main.rs lines 204-211): `file_count = min(paths.len(), files_per_thread)`
paths are popped off the tail of the queue (`Vec::pop`, so in reverse order)
into the worker-local batch, and `should_stopped` snapshots
`has_stopped && paths.is_empty()` after the drain. -/
structure IterResult where
  queue : WorkQueue
  should_stopped : Bool
  batch : List (List String)

def worker_iter (q : WorkQueue) : IterResult :=
  { queue :=
      ⟨q.paths.take (q.paths.length - min q.paths.length files_per_thread),
        q.has_stopped⟩,
    should_stopped :=
      q.has_stopped
        && (q.paths.take
              (q.paths.length - min q.paths.length files_per_thread)).isEmpty,
    batch :=
      (q.paths.drop (q.paths.length - min q.paths.length files_per_thread)).reverse }

/-- Result of running the worker loop: the queue as the worker last left it,
whether the worker exited the loop, the accumulated worker-local `paths`
vector (never cleared in the source), and the `should_stopped` snapshot of
every executed iteration. -/
structure RunResult where
  queue : WorkQueue
  exited : Bool
  batches : List (List String)
  snapshots : List Bool

/-- The worker loop (main.rs lines 199-221) run against a schedule of
interference steps: before an iteration acquires the lock, the rest of the
system (the walker pushing batches, the final close-and-notify, the other
workers popping) may transform the queue; `sched` lists one such
transformation per iteration and doubles as fuel, so a run can also end with
the loop still live.  The condition-variable wait (lines 201-203) only delays
an iteration and is absorbed into the interference step; reading the popped
files happens outside the lock and does not influence the loop control. -/
def worker_run : List (WorkQueue → WorkQueue) → WorkQueue →
    List (List String) → RunResult
  | [], q, acc => ⟨q, false, acc, []⟩
  | f :: fs, q, acc =>
    let r := worker_iter (f q)
    if r.should_stopped then ⟨r.queue, true, acc ++ r.batch, [r.should_stopped]⟩
    else
      let rest := worker_run fs r.queue (acc ++ r.batch)
      ⟨rest.queue, rest.exited, rest.batches, r.should_stopped :: rest.snapshots⟩

/-! ## Request record and framing codec (main.rs lines 31-35, 50-90) -/

/-- `enum OperatingMode` (main.rs lines 31-35). -/
inductive OperatingMode where
  | server
  | client
deriving DecidableEq

/-- `struct Args` (main.rs lines 50-75): the request record carried by a
frame.  String-valued fields are byte sequences, since Rust strings travel
as UTF-8 byte vectors on the wire. -/
structure Args where
  mode : OperatingMode
  root : Option (List Nat)
  client_pipe : Option (List Nat)
  files : Bool
  word : Bool
  main_server : Bool
  term : Option (List Nat)
deriving DecidableEq

/-- `usize::to_ne_bytes` on the 64-bit little-endian hosts the program runs
on: eight bytes, least significant first; the byte weights are the literal
powers 256⁰ … 256⁷ and the truncation to 64 bits is the final `% 256` of the
top byte. -/
def encNat64 (n : Nat) : List Nat :=
  [n % 256, n / 256 % 256, n / 65536 % 256, n / 16777216 % 256,
   n / 4294967296 % 256, n / 1099511627776 % 256,
   n / 281474976710656 % 256, n / 72057594037927936 % 256]

/-- `usize::from_ne_bytes` of an 8-byte little-endian buffer (any other
shape is unreachable: the caller always passes exactly 8 bytes). -/
def decNat64 : List Nat → Nat
  | [b0, b1, b2, b3, b4, b5, b6, b7] =>
      b0 + b1 * 256 + b2 * 65536 + b3 * 16777216 + b4 * 4294967296
        + b5 * 1099511627776 + b6 * 281474976710656
        + b7 * 72057594037927936
  | _ => 0

/-- Modelled from the spec: the payload codec is the external `bincode`
crate (`bincode::encode_to_vec` / `decode_from_slice`, not part of src/);
§4.8 fixes only that the payload is "a binary-encoded request record"
carrying all the fields.  This executable model encodes a boolean as one
byte. -/
def encBool (b : Bool) : List Nat := [if b then 1 else 0]

/-- Modelled from the spec: the mode enum as a one-byte variant index. -/
def encMode : OperatingMode → List Nat
  | .server => [0]
  | .client => [1]

/-- Modelled from the spec: a byte string as its 64-bit length followed by
its bytes. -/
def encBytes (s : List Nat) : List Nat := encNat64 s.length ++ s

/-- Modelled from the spec: an optional byte string as a presence byte
followed, when present, by the byte string. -/
def encOpt : Option (List Nat) → List Nat
  | none => [0]
  | some v => 1 :: encBytes v

/-- Modelled from the spec: the request record encoded field by field in
declaration order (mode, root, client_pipe, files, word, main_server,
term). -/
def encodeArgs (a : Args) : List Nat :=
  encMode a.mode ++ encOpt a.root ++ encOpt a.client_pipe
    ++ encBool a.files ++ encBool a.word ++ encBool a.main_server
    ++ encOpt a.term

/-- Consume exactly `n` bytes of the input, failing on a short read. -/
def takeExact (n : Nat) (l : List Nat) : Option (List Nat × List Nat) :=
  if n ≤ l.length then some (l.take n, l.drop n) else none

/-- Modelled from the spec: decoder for `encBool`. -/
def decBool : List Nat → Option (Bool × List Nat)
  | 0 :: r => some (false, r)
  | 1 :: r => some (true, r)
  | _ => none

/-- Modelled from the spec: decoder for `encMode`. -/
def decMode : List Nat → Option (OperatingMode × List Nat)
  | 0 :: r => some (OperatingMode.server, r)
  | 1 :: r => some (OperatingMode.client, r)
  | _ => none

/-- Consume an 8-byte little-endian length. -/
def decLen (l : List Nat) : Option (Nat × List Nat) :=
  (takeExact 8 l).map fun p => (decNat64 p.1, p.2)

/-- Modelled from the spec: decoder for `encBytes`. -/
def decBytes (l : List Nat) : Option (List Nat × List Nat) :=
  (decLen l).bind fun p => takeExact p.1 p.2

/-- Modelled from the spec: decoder for `encOpt`. -/
def decOpt : List Nat → Option (Option (List Nat) × List Nat)
  | 0 :: r => some (none, r)
  | 1 :: r => (decBytes r).map fun p => (some p.1, p.2)
  | _ => none

/-- Modelled from the spec: decoder for `encodeArgs`, consuming the fields
in declaration order and returning the record with the unconsumed rest. -/
def decodeArgs (l : List Nat) : Option (Args × List Nat) :=
  (decMode l).bind fun m =>
  (decOpt m.2).bind fun ro =>
  (decOpt ro.2).bind fun cp =>
  (decBool cp.2).bind fun fl =>
  (decBool fl.2).bind fun wd =>
  (decBool wd.2).bind fun ms =>
  (decOpt ms.2).map fun tm =>
  ({ mode := m.1, root := ro.1, client_pipe := cp.1, files := fl.1,
     word := wd.1, main_server := ms.1, term := tm.1 }, tm.2)

/-- `write_to_pipe` (main.rs lines 77-81): write
`encoded.len().to_ne_bytes()`, then the encoded payload. -/
def write_frame (a : Args) : List Nat :=
  encNat64 (encodeArgs a).length ++ encodeArgs a

/-- `read_from_pipe` (main.rs lines 83-90): read 8 length bytes, convert
with `from_ne_bytes`, read that many payload bytes, decode the record and
keep `.0` (the source discards the decoder's consumed-byte count). -/
def read_frame (l : List Nat) : Option (Args × List Nat) :=
  (decLen l).bind fun p =>
  (takeExact p.1 p.2).bind fun payload =>
  (decodeArgs payload.1).map fun d => (d.1, payload.2)

/-- A concrete request used by the framing witness: a client-side search for
the term `hi` with a reply channel named `p`, `word` and `main_server`
set. -/
def demoArgs : Args :=
  { mode := OperatingMode.client, root := some [47, 116, 109, 112],
    client_pipe := some [112], files := false, word := true,
    main_server := true, term := some [104, 105] }

/-! ## Federation protocol (`server_main` accept loop, main.rs lines 461-507,
and `client_main`, lines 511-553) -/

/-- `Indexer2::SERVER_TO_SERVER_ENDING_MSG` (main.rs line 176). -/
def SERVER_TO_SERVER_ENDING_MSG : String := "###server_to_server_end###"

/-- `Indexer2::SERVER_TO_CLIENT_ENDING_MSG` (main.rs line 177). -/
def SERVER_TO_CLIENT_ENDING_MSG : String := "###server_to_client_end###"

/-- `Indexer2::MAIN_SERVER_ENDING_MSG` (main.rs line 178). -/
def MAIN_SERVER_ENDING_MSG : String := "###main_server_end###"

mutual
/-- A server process with the result lines its index emits for the request
(its `find`/`list_files` output) and its federated children
(`additional_dirs`), each a server in its own right. -/
inductive SrvTree where
  | node (results : List String) (children : SrvList)
/-- The ordered list of federated children of a server. -/
inductive SrvList where
  | nil
  | cons (t : SrvTree) (rest : SrvList)
end

/-- The lines the federated children of a server contribute to the client's
reply channel, in fan-out order.  The parent dials child *k+1* only after
child *k*'s `###server_to_server_end###` arrived on the request socket
(main.rs lines 481-495), so each child's writes — its own results, its
`###server_to_client_end###`, and its descendants' contributions — precede
the next child's; a child is dialed with `main_server` cleared (line 479), so
no child emits `###main_server_end###`. -/
def childReplies : SrvList → List String
  | .nil => []
  | .cons (.node res cs) rest =>
      (res ++ [SERVER_TO_CLIENT_ENDING_MSG]) ++ childReplies cs ++ childReplies rest

/-- All lines reaching the client's reply channel for one request dialed at
server `t`: the server's own result lines and its
`###server_to_client_end###` (main.rs lines 468-474), the serialized child
contributions, and — iff the dialed server is the entry point —
`###main_server_end###` written last over a fresh connection (lines
501-506). -/
def serverReply : SrvTree → Bool → List String
  | .node res cs, is_entry =>
      (res ++ [SERVER_TO_CLIENT_ENDING_MSG]) ++ childReplies cs
        ++ (if is_entry then [MAIN_SERVER_ENDING_MSG] else [])

/-- Result lines never collide with the sentinel lines (they are of the form
`path:line_no: text` or bare paths). -/
def sentinelFree (l : List String) : Bool :=
  l.all fun s =>
    !(s == SERVER_TO_SERVER_ENDING_MSG) && !(s == SERVER_TO_CLIENT_ENDING_MSG)
      && !(s == MAIN_SERVER_ENDING_MSG)

/-- `sentinelFree` at every server of a child list, hereditarily. -/
def listOk : SrvList → Bool
  | .nil => true
  | .cons (.node res cs) rest => sentinelFree res && listOk cs && listOk rest

/-- `sentinelFree` at a server and all its descendants. -/
def treeOk : SrvTree → Bool
  | .node res cs => sentinelFree res && listOk cs

def lenSrv : SrvList → Nat
  | .nil => 0
  | .cons _ rest => lenSrv rest + 1

/-- The number `k` of federated children of a server. -/
def numChildren : SrvTree → Nat
  | .node _ cs => lenSrv cs

/-- A demo federation: an entry-point server with one result line and one
childless child. -/
def demoTree : SrvTree :=
  SrvTree.node ["a.txt:1: hello"] (SrvList.cons (SrvTree.node [] SrvList.nil) SrvList.nil)

/-! ## Filesystem model and bulk build (`visit_dirs`, main.rs lines 131-146,
and `Indexer2::build`, lines 182-260) -/

mutual
/-- A filesystem node: a regular file with contents (`none` when
`read_to_string` fails, i.e. the file is not readable as text) or a
directory. -/
inductive FSTree where
  | file (contents : Option String)
  | dir (entries : FSEntries)
/-- The named entries of a directory, in `read_dir` order. -/
inductive FSEntries where
  | nil
  | cons (name : String) (t : FSTree) (rest : FSEntries)
end

/-- The bulk build over the entries `es` of the directory at relative path
`rel` (the whole build is `rel = []` at the root): `visit_dirs` (main.rs
lines 131-146) recurses into a subdirectory only when
`filter_path(dir, root, is_dir=true)` passes, and hands every non-directory
entry to the callback; the `load_files` callback (lines 228-242) drops a
file unless `filter_path(path, root, is_dir=false)` passes, otherwise queues
it; a worker then reads each queued path and silently skips unreadable files
(lines 213-217).  The result pairs every indexed path with its contents: the
key set of the merged worker maps is exactly the path set collected here —
the workers' never-cleared batch vectors re-read paths, but re-inserting an
equal pair into a map changes nothing, and paths from distinct entries are
distinct. -/
def buildEntries (fs : List Filter) :
    List String → FSEntries → List (List String × String)
  | _, .nil => []
  | rel, .cons name (.file c) rest =>
      (if filter_path fs (some (relStr (rel ++ [name]))) false then
        (match c with
          | some s => [(rel ++ [name], s)]
          | none => [])
      else []) ++ buildEntries fs rel rest
  | rel, .cons name (.dir es) rest =>
      (if filter_path fs (some (relStr (rel ++ [name]))) true then
        buildEntries fs (rel ++ [name]) es
      else []) ++ buildEntries fs rel rest
termination_by _ es => sizeOf es

/-- Resolve the path `n :: p` among directory entries: descend at the first
entry named `n`. -/
def lookupE : FSEntries → String → List String → Option FSTree
  | .nil, _, _ => none
  | .cons name t rest, n, p =>
    if name = n then
      match p, t with
      | [], _ => some t
      | _ :: _, .file _ => none
      | n' :: p', .dir es => lookupE es n' p'
    else lookupE rest n p
termination_by es _ _ => sizeOf es

/-- Resolve a path relative to the root directory with entries `es`. -/
def lookupRoot (es : FSEntries) (p : List String) : Option FSTree :=
  match p with
  | [] => some (FSTree.dir es)
  | n :: p' => lookupE es n p'

/-- The entry names of a directory. -/
def namesE : FSEntries → List String
  | .nil => []
  | .cons n _ rest => n :: namesE rest

/-- Distinctness of a name list. -/
def nodupNames : List String → Bool
  | [] => true
  | n :: rest => !rest.contains n && nodupNames rest

mutual
/-- Well-formedness of a filesystem node: every directory in it lists
distinct entry names (as a real filesystem does). -/
def wfT : FSTree → Bool
  | .file _ => true
  | .dir es => nodupNames (namesE es) && wfE es
/-- Well-formedness of every node of an entry list. -/
def wfE : FSEntries → Bool
  | .nil => true
  | .cons _ t rest => wfT t && wfE rest
end

/-- Well-formedness of a root directory: distinct entry names at the root
and in every directory below it. -/
def wfRoot (es : FSEntries) : Bool :=
  nodupNames (namesE es) && wfE es

/-- Every strict, nonempty prefix of `q` — an ancestor directory strictly
below the directory at `rel` — passes the directory filter. -/
def AncOk (fs : List Filter) (rel q : List String) : Prop :=
  ∀ r, r <+: q → r ≠ [] → r ≠ q →
    filter_path fs (some (relStr (rel ++ r))) true = true

/-- `P` is a regular file under the root. -/
def isFileUnder (es : FSEntries) (p : List String) : Prop :=
  ∃ c, lookupRoot es p = some (FSTree.file c)

/-- `P` is a regular file under the root whose contents are readable as
text. -/
def isReadableUnder (es : FSEntries) (p : List String) : Prop :=
  ∃ s, lookupRoot es p = some (FSTree.file (some s))

/-- Build filters for the bulk-build witness: include `*.txt` and `*.rs`
files, exclude the `target/` directory. -/
def demoBuildFilters : List Filter :=
  [parse_filter "*.txt", parse_filter "*.rs", parse_filter "!target/"]

/-- A demo tree for the bulk-build witness:
`a.txt`, `src/x.log` (unreadable), `src/y.rs`, `target/z.rs`. -/
def demoFS : FSEntries :=
  FSEntries.cons "a.txt" (FSTree.file (some "hello world"))
    (FSEntries.cons "src"
      (FSTree.dir
        (FSEntries.cons "x.log" (FSTree.file none)
          (FSEntries.cons "y.rs" (FSTree.file (some "fn y")) FSEntries.nil)))
      (FSEntries.cons "target"
        (FSTree.dir
          (FSEntries.cons "z.rs" (FSTree.file (some "fn z")) FSEntries.nil))
        FSEntries.nil))

end Hanoi

/-! ## Theorems -/

namespace Hanoi

theorem filter_step_eq (rel : String) (result : Bool) (f : Filter) :
    filter_step rel result f
      = if rule_matches f rel then f.should_include else result := by
  cases hsw : f.should_start_with <;> cases hew : f.should_end_with <;>
    simp [filter_step, rule_matches, hsw, hew]

theorem filter_path_eq_lastMatch (filters : List Filter) (rel : String) (d : Bool) :
    filter_path filters (some rel) d
      = ((filters.filter fun f => rule_matches f rel).getLast?.elim d
          fun f => f.should_include) := by
  show filters.foldl (filter_step rel) d = _
  induction filters using List.reverseRecOn with
  | nil => rfl
  | append_singleton l f ih =>
    rw [List.foldl_append, List.filter_append]
    simp only [List.foldl_cons, List.foldl_nil, filter_step_eq, List.filter_cons,
      List.filter_nil]
    by_cases h : rule_matches f rel
    · simp [h, List.getLast?_concat]
    · simp [h, ih]

/-- C3: for every filter set, relative path and `is_dir` flag, when at least
one rule matches the relative path, `filter_path` returns the `should_include`
value of the last matching rule in the list (last match wins); in particular
when two matching rules have opposite `include` values the one with the larger
index decides. -/
theorem filter_last_match_wins (filters : List Filter) (rel : String) (d : Bool)
    (h : (filters.filter fun f => rule_matches f rel) ≠ []) :
    filter_path filters (some rel) d
      = ((filters.filter fun f => rule_matches f rel).getLast h).should_include := by
  rw [filter_path_eq_lastMatch, List.getLast?_eq_getLast _ h]
  rfl

/-- Witness for C3: the rules parsed from `*src*` (include, substring) and
`!*.log` (exclude, suffix) both match `src/x.log`; the later rule decides, so
the file is excluded. -/
theorem filter_last_match_wins_witness :
    (filter_path demoFilters (some "src/x.log") false
      = ((demoFilters.filter fun f => rule_matches f "src/x.log").getLast
          (by decide)).should_include)
    ∧ filter_path demoFilters (some "src/x.log") false = false :=
  ⟨filter_last_match_wins demoFilters "src/x.log" false (by decide), by decide⟩

/-- C4 (code evaluated at the failing input): the `only_dir` skip in
`filter_path` is commented out in the source (main.rs lines 108-110), so a
`dir_only` rule is *not* skipped for non-directories.  The rule parsed from
`src/` is `dir_only`, yet for the non-directory relative path `src` it flips
the result from the file default `false` to `true`. -/
theorem dir_only_rule_not_skipped_for_file :
    (parse_filter "src/").only_dir = true
    ∧ filter_path [parse_filter "src/"] (some "src") false = true
    ∧ filter_path [] (some "src") false = false := by
  decide

/-- C2 (code evaluated at the failing input): for term `a` (byte 97) in the
line `ab` (bytes 97, 98), the only occurrence is followed by the alphanumeric
byte `b`, so the claim forbids emission, but the off-by-one right-boundary
comparison `pos + term.len() < line.len() - 1` in the source never inspects
that neighbor and the line is emitted in word mode. -/
theorem word_mode_boundary_off_by_one :
    line_emitted true [97] [97, 98] = true
    ∧ word_boundary_ok [97] [97, 98] = false := by
  decide

theorem handle_one_apply (filters : List Filter) (disk : Disk) (k : EvKind)
    (m : Index) (p x : List String) :
    handle_one filters disk k m p x
      = match eventWrite filters disk k p with
        | none => m x
        | some v => if x = p then v else m x := by
  cases k <;> simp only [handle_one, eventWrite] <;> split <;>
    first
      | rfl
      | (rename_i hguard
         rcases hd : disk p with _ | c
         · simp_all
         · cases c <;> simp_all)

theorem handle_event_apply (filters : List Filter) (disk : Disk) (k : EvKind)
    (ps : List (List String)) (m : Index) (x : List String) :
    handle_event filters disk k ps m x
      = if x ∈ ps then (eventWrite filters disk k x).elim (m x) (fun v => v)
        else m x := by
  induction ps generalizing m with
  | nil => simp [handle_event]
  | cons p ps ih =>
    show handle_event filters disk k ps (handle_one filters disk k m p) x = _
    rw [ih]
    by_cases hx : x ∈ ps
    · simp only [hx, if_true, List.mem_cons, or_true, handle_one_apply]
      cases hw : eventWrite filters disk k x
      · simp only [Option.elim]
        by_cases hxp : x = p
        · subst hxp
          rw [hw]
        · cases eventWrite filters disk k p
          · rfl
          · simp [hxp]
      · rfl
    · by_cases hxp : x = p
      · subst hxp
        simp only [hx, if_false, List.mem_cons, true_or, if_true,
          handle_one_apply]
        cases eventWrite filters disk k x
        · rfl
        · simp
      · simp only [hx, hxp, if_false, List.mem_cons, false_or,
          handle_one_apply]
        cases eventWrite filters disk k p
        · rfl
        · simp [hxp]

/-- C5 (code evaluated at the failing input): the Remove arm of
`handle_event` keeps the `path.is_file()` guard (main.rs line 317), so a path
that has already been deleted from disk — `is_file()` false — is *not*
removed from the index even though the filter passes: the stale key survives
the Remove event. -/
theorem remove_event_keeps_deleted_key :
    handle_event [includeAllFilter] (fun _ => none) EvKind.remove [["a.txt"]]
      (fun x => if x = ["a.txt"] then some "hello world" else none) ["a.txt"]
      = some "hello world" := by
  decide

/-- C7: handling the same Create or Modify event twice in a row against an
unchanged disk leaves the index exactly as handling it once does, and
handling a Remove event none of whose paths is a key of the index leaves the
index unchanged. -/
theorem event_idempotence (filters : List Filter) (disk : Disk) :
    (∀ (k : EvKind) (ps : List (List String)) (m : Index),
        k = EvKind.create ∨ k = EvKind.modify →
        handle_event filters disk k ps (handle_event filters disk k ps m)
          = handle_event filters disk k ps m)
    ∧ (∀ (ps : List (List String)) (m : Index),
        (∀ p ∈ ps, m p = none) →
        handle_event filters disk EvKind.remove ps m = m) := by
  constructor
  · intro k ps m _
    funext x
    simp only [handle_event_apply]
    by_cases hx : x ∈ ps
    · rcases hw : eventWrite filters disk k x with _ | v <;> simp [hx, hw]
    · simp [hx]
  · intro ps m habs
    funext x
    rw [handle_event_apply]
    by_cases hx : x ∈ ps
    · simp only [hx, if_true]
      rcases hw : eventWrite filters disk EvKind.remove x with _ | v
      · rfl
      · have hv : v = none := by
          revert hw
          simp only [eventWrite]
          split
          · intro h
            exact (Option.some.injEq _ _ ▸ h).symm
          · intro h
            exact absurd h (by simp)
        rw [hv, habs x hx]
        rfl
    · simp [hx]

/-- Witness for C7: a Create event for `a.txt` applied twice to the empty
index equals applying it once, and a Remove event for the absent key `b.txt`
leaves the empty index unchanged. -/
theorem event_idempotence_witness :
    (handle_event [includeAllFilter] demoDisk EvKind.create [["a.txt"]]
        (handle_event [includeAllFilter] demoDisk EvKind.create [["a.txt"]]
          (fun _ => none))
      = handle_event [includeAllFilter] demoDisk EvKind.create [["a.txt"]]
          (fun _ => none))
    ∧ handle_event [includeAllFilter] demoDisk EvKind.remove [["b.txt"]]
        (fun _ => none)
      = (fun _ => none) :=
  ⟨(event_idempotence [includeAllFilter] demoDisk).1 EvKind.create [["a.txt"]]
      (fun _ => none) (Or.inl rfl),
   (event_idempotence [includeAllFilter] demoDisk).2 [["b.txt"]]
      (fun _ => none) (fun _ _ => rfl)⟩

/-- C10: in the `.hanoi` loader, every line before the first section header —
in particular every non-blank, non-comment one — contributes no filter rule
and no additional directory: parsing is as if those lines were absent. -/
theorem pre_section_lines_ignored (pre rest : List String)
    (filters : List Filter) (dirs : List String)
    (h : ∀ l ∈ pre,
      ¬(strStartsWith (strTrim l) "[" = true ∧ strEndsWith (strTrim l) "]" = true)) :
    parse_config_lines (pre ++ rest) "" filters dirs
      = parse_config_lines rest "" filters dirs := by
  induction pre with
  | nil => rfl
  | cons l pre ih =>
    have hl := h l (List.mem_cons_self l pre)
    have hdr : ¬((strStartsWith (strTrim l) "[" && strEndsWith (strTrim l) "]") = true) := by
      simp only [Bool.and_eq_true]
      exact hl
    have htail : ∀ x ∈ pre,
        ¬(strStartsWith (strTrim x) "[" = true ∧ strEndsWith (strTrim x) "]" = true) :=
      fun x hx => h x (List.mem_cons_of_mem _ hx)
    simp only [List.cons_append, parse_config_lines]
    by_cases hb : ((strTrim l).toList.isEmpty || strStartsWith (strTrim l) "#") = true
    · rw [if_pos hb]
      exact ih htail
    · rw [if_neg hb, if_neg hdr, if_neg (by decide), if_neg (by decide)]
      exact ih htail

/-- Witness for C10: a stray line ahead of `[filters]` leaves the parse of
the remainder untouched. -/
theorem pre_section_lines_ignored_witness :
    parse_config_lines (["stray line"] ++ ["[filters]", "!*.log"]) "" [] []
      = parse_config_lines ["[filters]", "!*.log"] "" [] [] :=
  pre_section_lines_ignored ["stray line"] ["[filters]", "!*.log"] [] []
    (by decide)

/-- C8: the worker loop exits iff the `should_stopped` snapshot — taken under
the queue lock after draining, as `has_stopped && paths.is_empty()` — held:
every snapshot of a non-final iteration is false, the run exits exactly when
its final recorded snapshot is true, and an exiting worker leaves a queue
with the stop flag set and no paths remaining, for every interference
schedule. -/
theorem worker_exit_iff (sched : List (WorkQueue → WorkQueue)) (q : WorkQueue)
    (acc : List (List String)) :
    ((worker_run sched q acc).exited = true ↔
        (worker_run sched q acc).snapshots.getLast? = some true)
    ∧ (∀ s ∈ (worker_run sched q acc).snapshots.dropLast, s = false)
    ∧ ((worker_run sched q acc).exited = true →
        (worker_run sched q acc).queue.has_stopped = true
          ∧ (worker_run sched q acc).queue.paths = []) := by
  induction sched generalizing q acc with
  | nil => simp [worker_run]
  | cons f fs ih =>
    simp only [worker_run]
    by_cases hs : (worker_iter (f q)).should_stopped = true
    · simp only [hs, if_true]
      refine ⟨by simp, by simp, fun _ => ?_⟩
      have hs' := hs
      simp only [worker_iter, Bool.and_eq_true, List.isEmpty_iff] at hs'
      exact ⟨hs'.1, hs'.2⟩
    · rw [Bool.not_eq_true] at hs
      obtain ⟨ih1, ih2, ih3⟩ := ih (worker_iter (f q)).queue (acc ++ (worker_iter (f q)).batch)
      simp only [hs, Bool.false_eq_true, if_false]
      refine ⟨?_, ?_, ih3⟩
      · rw [ih1]
        rcases (worker_run fs (worker_iter (f q)).queue
            (acc ++ (worker_iter (f q)).batch)).snapshots with _ | ⟨b, l⟩
        · simp
        · rw [List.getLast?_cons_cons]
      · intro s hsmem
        rcases hsn : (worker_run fs (worker_iter (f q)).queue
            (acc ++ (worker_iter (f q)).batch)).snapshots with _ | ⟨b, l⟩
        · rw [hsn] at hsmem
          simp at hsmem
        · rw [hsn] at hsmem ih2
          rw [List.dropLast_cons₂, List.mem_cons] at hsmem
          rcases hsmem with hfalse | hmem
          · exact hfalse
          · exact ih2 s hmem

/-- Witness for C8: a one-iteration schedule against a closed, empty queue:
the snapshot holds, the worker exits, and the queue it leaves is stopped and
empty. -/
theorem worker_exit_iff_witness :
    (worker_run [fun q => q] ⟨[], true⟩ []).queue.has_stopped = true
      ∧ (worker_run [fun q => q] ⟨[], true⟩ []).queue.paths = [] :=
  (worker_exit_iff [fun q => q] ⟨[], true⟩ []).2.2 rfl

theorem decNat64_encNat64 (n : Nat) :
    decNat64 (encNat64 n) = n % 18446744073709551616 := by
  simp only [encNat64, decNat64]
  omega

theorem takeExact_append (l r : List Nat) :
    takeExact l.length (l ++ r) = some (l, r) := by
  simp [takeExact, List.take_left, List.drop_left]

theorem decLen_enc (n : Nat) (r : List Nat) (h : n < 18446744073709551616) :
    decLen (encNat64 n ++ r) = some (n, r) := by
  have h8 : (encNat64 n).length = 8 := rfl
  rw [decLen, show (8 : Nat) = (encNat64 n).length from h8.symm, takeExact_append]
  simp [decNat64_encNat64, Nat.mod_eq_of_lt h]

theorem decBytes_enc (s r : List Nat) (h : s.length < 18446744073709551616) :
    decBytes (encBytes s ++ r) = some (s, r) := by
  rw [encBytes, List.append_assoc, decBytes, decLen_enc _ _ h]
  simp only [Option.some_bind]
  exact takeExact_append s r

theorem decBool_enc (b : Bool) (r : List Nat) :
    decBool (encBool b ++ r) = some (b, r) := by
  cases b <;> rfl

theorem decMode_enc (m : OperatingMode) (r : List Nat) :
    decMode (encMode m ++ r) = some (m, r) := by
  cases m <;> rfl

theorem decOpt_enc (o : Option (List Nat)) (r : List Nat)
    (h : ∀ s, o = some s → s.length < 18446744073709551616) :
    decOpt (encOpt o ++ r) = some (o, r) := by
  cases o with
  | none => rfl
  | some v =>
    show decOpt (1 :: (encBytes v ++ r)) = some (some v, r)
    simp [decOpt, decBytes_enc v r (h v rfl)]

theorem decodeArgs_encodeArgs (a : Args) (r : List Nat)
    (hroot : ∀ s, a.root = some s → s.length < 18446744073709551616)
    (hcp : ∀ s, a.client_pipe = some s → s.length < 18446744073709551616)
    (hterm : ∀ s, a.term = some s → s.length < 18446744073709551616) :
    decodeArgs (encodeArgs a ++ r) = some (a, r) := by
  rcases a with ⟨m, ro, cp, fl, wd, ms, tm⟩
  dsimp only at hroot hcp hterm
  simp only [encodeArgs, List.append_assoc, decodeArgs]
  rw [decMode_enc]
  simp only [Option.some_bind]
  rw [decOpt_enc _ _ hroot]
  simp only [Option.some_bind]
  rw [decOpt_enc _ _ hcp]
  simp only [Option.some_bind]
  rw [decBool_enc]
  simp only [Option.some_bind]
  rw [decBool_enc]
  simp only [Option.some_bind]
  rw [decBool_enc]
  simp only [Option.some_bind]
  rw [decOpt_enc _ _ hterm]
  simp only [Option.map_some']

/-- C6: decoding the encoding of any request record recovers the record; the
8-byte native-endian length prefix `write_to_pipe` emits equals the byte
count of the encoded payload; and reading the frame back — length prefix,
then that many payload bytes, then decode — recovers the record.  The
hypotheses say the record fits 64-bit framing, as every real request does. -/
theorem framing_round_trip (a : Args)
    (hroot : ∀ s, a.root = some s → s.length < 18446744073709551616)
    (hcp : ∀ s, a.client_pipe = some s → s.length < 18446744073709551616)
    (hterm : ∀ s, a.term = some s → s.length < 18446744073709551616)
    (hlen : (encodeArgs a).length < 18446744073709551616) :
    decodeArgs (encodeArgs a) = some (a, [])
    ∧ write_frame a = encNat64 (encodeArgs a).length ++ encodeArgs a
    ∧ read_frame (write_frame a) = some (a, []) := by
  have hdec : decodeArgs (encodeArgs a) = some (a, []) := by
    have h := decodeArgs_encodeArgs a [] hroot hcp hterm
    rwa [List.append_nil] at h
  have htake : takeExact (encodeArgs a).length (encodeArgs a)
      = some (encodeArgs a, []) := by
    have h := takeExact_append (encodeArgs a) []
    rwa [List.append_nil] at h
  refine ⟨hdec, rfl, ?_⟩
  rw [read_frame, write_frame, decLen_enc _ _ hlen]
  simp only [Option.some_bind]
  rw [htake]
  simp [hdec]

/-- Witness for C6: the concrete request `demoArgs` survives the payload
round trip and the full frame round trip. -/
theorem framing_round_trip_witness :
    decodeArgs (encodeArgs demoArgs) = some (demoArgs, [])
    ∧ read_frame (write_frame demoArgs) = some (demoArgs, []) := by
  have h := framing_round_trip demoArgs
    (by intro s hs; simp only [demoArgs, Option.some.injEq] at hs; subst hs; decide)
    (by intro s hs; simp only [demoArgs, Option.some.injEq] at hs; subst hs; decide)
    (by intro s hs; simp only [demoArgs, Option.some.injEq] at hs; subst hs; decide)
    (by decide)
  exact ⟨h.1, h.2.2⟩

theorem count_of_sentinelFree (res : List String) (hres : sentinelFree res = true) :
    List.count SERVER_TO_CLIENT_ENDING_MSG res = 0
      ∧ List.count MAIN_SERVER_ENDING_MSG res = 0 := by
  constructor <;>
    · rw [List.count_eq_zero]
      intro hmem
      have h := (List.all_eq_true.mp hres) _ hmem
      simp at h

theorem count_main_childReplies : (l : SrvList) → listOk l = true →
    List.count MAIN_SERVER_ENDING_MSG (childReplies l) = 0
  | .nil, _ => by simp [childReplies]
  | .cons (.node res cs) rest, h => by
    simp only [listOk, Bool.and_eq_true] at h
    obtain ⟨⟨hres, hcs⟩, hrest⟩ := h
    have ih1 := count_main_childReplies cs hcs
    have ih2 := count_main_childReplies rest hrest
    simp only [childReplies, List.count_append, ih1, ih2,
      (count_of_sentinelFree res hres).2]
    rw [List.count_cons_of_ne (by decide), List.count_nil]

theorem count_s2c_childReplies : (l : SrvList) →
    lenSrv l ≤ List.count SERVER_TO_CLIENT_ENDING_MSG (childReplies l)
  | .nil => by simp [childReplies, lenSrv]
  | .cons (.node res cs) rest => by
    have ih := count_s2c_childReplies rest
    simp only [childReplies, lenSrv, List.count_append, List.count_cons_self,
      List.count_nil]
    omega

/-- C9: for a request dialed with `is_entry_point = true` at a server with
`k` federated children whose result lines do not collide with the sentinel
strings, the reply channel carries exactly one `###main_server_end###` line,
and everything before it — including at least `k + 1`
`###server_to_client_end###` lines, one from the entry point and one from
each child — has reached the reply channel first. -/
theorem federation_termination (t : SrvTree) (h : treeOk t = true) :
    List.count MAIN_SERVER_ENDING_MSG (serverReply t true) = 1
    ∧ ∃ body, serverReply t true = body ++ [MAIN_SERVER_ENDING_MSG]
        ∧ List.count MAIN_SERVER_ENDING_MSG body = 0
        ∧ numChildren t + 1 ≤ List.count SERVER_TO_CLIENT_ENDING_MSG body := by
  rcases t with ⟨res, cs⟩
  simp only [treeOk, Bool.and_eq_true] at h
  obtain ⟨hres, hcs⟩ := h
  have hbody : List.count MAIN_SERVER_ENDING_MSG
      ((res ++ [SERVER_TO_CLIENT_ENDING_MSG]) ++ childReplies cs) = 0 := by
    simp only [List.count_append, count_main_childReplies cs hcs,
      (count_of_sentinelFree res hres).2]
    rw [List.count_cons_of_ne (by decide), List.count_nil]
  have hshape : serverReply (SrvTree.node res cs) true
      = ((res ++ [SERVER_TO_CLIENT_ENDING_MSG]) ++ childReplies cs)
          ++ [MAIN_SERVER_ENDING_MSG] := by
    simp [serverReply]
  refine ⟨?_, (res ++ [SERVER_TO_CLIENT_ENDING_MSG]) ++ childReplies cs,
    hshape, hbody, ?_⟩
  · rw [hshape, List.count_append, hbody]
    simp
  · have := count_s2c_childReplies cs
    simp only [numChildren, List.count_append, List.count_cons_self, List.count_nil]
    omega

/-- Witness for C9: an entry-point server with one result line and a single
childless child: two `###server_to_client_end###` lines precede the single
`###main_server_end###`. -/
theorem federation_termination_witness :
    List.count MAIN_SERVER_ENDING_MSG (serverReply demoTree true) = 1
    ∧ ∃ body, serverReply demoTree true = body ++ [MAIN_SERVER_ENDING_MSG]
        ∧ List.count MAIN_SERVER_ENDING_MSG body = 0
        ∧ numChildren demoTree + 1
            ≤ List.count SERVER_TO_CLIENT_ENDING_MSG body :=
  federation_termination demoTree (by decide)

theorem lookupE_mem : (es : FSEntries) → (n : String) → (q : List String) →
    (t : FSTree) → lookupE es n q = some t → n ∈ namesE es
  | .nil, n, q, t, h => by simp [lookupE] at h
  | .cons name t' rest, n, q, t, h => by
    by_cases hne : name = n
    · subst hne
      simp [namesE]
    · have h' : lookupE rest n q = some t := by
        rw [lookupE.eq_def] at h
        simpa [hne] using h
      have hmem := lookupE_mem rest n q t h'
      simp [namesE, hmem]
termination_by es _ _ _ _ => sizeOf es

theorem ancOk_nil (fs : List Filter) (rel : List String) : AncOk fs rel [] := by
  intro r hpre hne _
  exact absurd (List.prefix_nil.mp hpre) hne

theorem ancOk_cons (fs : List Filter) (rel : List String) (n : String)
    (q : List String) :
    AncOk fs rel (n :: q)
      ↔ ((q ≠ [] → filter_path fs (some (relStr (rel ++ [n]))) true = true)
          ∧ AncOk fs (rel ++ [n]) q) := by
  constructor
  · intro h
    constructor
    · intro hq
      have hne2 : ([n] : List String) ≠ n :: q := by
        intro heq
        injection heq with _ h2
        exact hq h2.symm
      exact h [n] (List.cons_prefix_cons.mpr ⟨rfl, List.nil_prefix⟩) (by simp) hne2
    · intro r hpre hne hneq
      have hneq2 : n :: r ≠ n :: q := by
        intro heq
        injection heq with _ h2
        exact hneq h2
      have hfull := h (n :: r) (List.cons_prefix_cons.mpr ⟨rfl, hpre⟩) (by simp) hneq2
      simpa [List.append_assoc] using hfull
  · rintro ⟨h1, h2⟩ r hpre hne hneq
    rcases List.prefix_cons_iff.mp hpre with h0 | ⟨t, ht, htp⟩
    · exact absurd h0 hne
    · subst ht
      by_cases htnil : t = []
      · subst htnil
        have hq : q ≠ [] := by
          intro hq0
          subst hq0
          exact hneq rfl
        simpa using h1 hq
      · by_cases htq : t = q
        · subst htq
          exact absurd rfl hneq
        · have hfull := h2 t htp htnil htq
          simpa [List.append_assoc] using hfull

theorem ancOk_singleton (fs : List Filter) (rel : List String) (n : String) :
    AncOk fs rel [n] :=
  (ancOk_cons fs rel n []).mpr ⟨fun h => absurd rfl h, ancOk_nil fs (rel ++ [n])⟩

theorem mem_buildEntries (fs : List Filter) :
    (es : FSEntries) → (rel p : List String) → (s : String) →
    (nodupNames (namesE es) && wfE es) = true →
    ((p, s) ∈ buildEntries fs rel es
      ↔ ∃ n q, p = rel ++ n :: q
          ∧ lookupE es n q = some (FSTree.file (some s))
          ∧ filter_path fs (some (relStr (rel ++ n :: q))) false = true
          ∧ AncOk fs rel (n :: q))
  | .nil, rel, p, s, _ => by simp [buildEntries, lookupE]
  | .cons name (.file c) rest, rel, p, s, hwf => by
    simp only [namesE, nodupNames, wfE, wfT, Bool.and_eq_true, Bool.true_and,
      Bool.not_eq_true'] at hwf
    obtain ⟨⟨hname, hndrest⟩, hwrest⟩ := hwf
    have hname' : name ∉ namesE rest := by
      intro hm
      simp_all
    have ih := mem_buildEntries fs rest rel p s
      (by rw [Bool.and_eq_true]; exact ⟨hndrest, hwrest⟩)
    constructor
    · intro hmem
      rw [buildEntries.eq_def] at hmem
      simp only [List.mem_append] at hmem
      rcases hmem with hfirst | hrest
      · by_cases hf : filter_path fs (some (relStr (rel ++ [name]))) false = true
        · rw [if_pos hf] at hfirst
          cases c with
          | none => simp at hfirst
          | some s0 =>
            simp only [List.mem_singleton, Prod.mk.injEq] at hfirst
            obtain ⟨hp, hs⟩ := hfirst
            subst hs
            exact ⟨name, [], hp, by rw [lookupE.eq_def]; simp, hf,
              ancOk_singleton fs rel name⟩
        · rw [if_neg hf] at hfirst
          simp at hfirst
      · obtain ⟨n, q, hp, hlook, hfil, hanc⟩ := ih.mp hrest
        have hne : name ≠ n := by
          intro he
          exact hname' (he ▸ lookupE_mem rest n q _ hlook)
        exact ⟨n, q, hp, by rw [lookupE.eq_def]; simp [hne, hlook], hfil, hanc⟩
    · rintro ⟨n, q, hp, hlook, hfil, hanc⟩
      by_cases hne : name = n
      · subst hne
        cases q with
        | nil =>
          rw [lookupE.eq_def] at hlook
          simp at hlook
          subst hlook
          rw [buildEntries.eq_def]
          simp only [List.mem_append]
          left
          rw [if_pos hfil]
          simp [hp]
        | cons n' q' =>
          rw [lookupE.eq_def] at hlook
          simp at hlook
      · have hlook' : lookupE rest n q = some (FSTree.file (some s)) := by
          rw [lookupE.eq_def] at hlook
          simpa [hne] using hlook
        rw [buildEntries.eq_def]
        simp only [List.mem_append]
        right
        exact ih.mpr ⟨n, q, hp, hlook', hfil, hanc⟩
  | .cons name (.dir es') rest, rel, p, s, hwf => by
    simp only [namesE, nodupNames, wfE, wfT, Bool.and_eq_true,
      Bool.not_eq_true'] at hwf
    obtain ⟨⟨hname, hndrest⟩, ⟨hnd', hwc'⟩, hwrest⟩ := hwf
    have hname' : name ∉ namesE rest := by
      intro hm
      simp_all
    have ihrest := mem_buildEntries fs rest rel p s
      (by rw [Bool.and_eq_true]; exact ⟨hndrest, hwrest⟩)
    have ihes := mem_buildEntries fs es' (rel ++ [name]) p s
      (by rw [Bool.and_eq_true]; exact ⟨hnd', hwc'⟩)
    constructor
    · intro hmem
      rw [buildEntries.eq_def] at hmem
      simp only [List.mem_append] at hmem
      rcases hmem with hfirst | hrest
      · by_cases hf : filter_path fs (some (relStr (rel ++ [name]))) true = true
        · rw [if_pos hf] at hfirst
          obtain ⟨n', q', hp, hlook, hfil, hanc⟩ := ihes.mp hfirst
          refine ⟨name, n' :: q', ?_, ?_, ?_, ?_⟩
          · rw [hp]
            simp [List.append_assoc]
          · rw [lookupE.eq_def]
            simp [hlook]
          · simpa [List.append_assoc] using hfil
          · rw [ancOk_cons]
            exact ⟨fun _ => hf, hanc⟩
        · rw [if_neg hf] at hfirst
          simp at hfirst
      · obtain ⟨n, q, hp, hlook, hfil, hanc⟩ := ihrest.mp hrest
        have hne : name ≠ n := by
          intro he
          exact hname' (he ▸ lookupE_mem rest n q _ hlook)
        exact ⟨n, q, hp, by rw [lookupE.eq_def]; simp [hne, hlook], hfil, hanc⟩
    · rintro ⟨n, q, hp, hlook, hfil, hanc⟩
      by_cases hne : name = n
      · subst hne
        cases q with
        | nil =>
          rw [lookupE.eq_def] at hlook
          simp at hlook
        | cons n' q' =>
          have hlook' : lookupE es' n' q' = some (FSTree.file (some s)) := by
            rw [lookupE.eq_def] at hlook
            simpa using hlook
          rw [ancOk_cons] at hanc
          obtain ⟨h1, h2⟩ := hanc
          have hf : filter_path fs (some (relStr (rel ++ [name]))) true = true :=
            h1 (by simp)
          rw [buildEntries.eq_def]
          simp only [List.mem_append]
          left
          rw [if_pos hf]
          refine ihes.mpr ⟨n', q', ?_, hlook', ?_, h2⟩
          · rw [hp]
            simp [List.append_assoc]
          · simpa [List.append_assoc] using hfil
      · have hlook' : lookupE rest n q = some (FSTree.file (some s)) := by
          rw [lookupE.eq_def] at hlook
          simpa [hne] using hlook
        rw [buildEntries.eq_def]
        simp only [List.mem_append]
        right
        exact ihrest.mpr ⟨n, q, hp, hlook', hfil, hanc⟩
termination_by es _ _ _ _ => sizeOf es

/-- C1: after a bulk build with filter rules `F` over a well-formed root,
the indexed key set is exactly the set of paths `P` such that `P` is a
regular file under the root, `filter(P, R, false)` passes, every ancestor
directory of `P` strictly between the root and `P` passes
`filter(D, R, true)`, and `P`'s contents are readable as text. -/
theorem build_keys_exact (fs : List Filter) (es : FSEntries)
    (hwf : wfRoot es = true) (p : List String) :
    (∃ s, (p, s) ∈ buildEntries fs [] es)
      ↔ isFileUnder es p
        ∧ filter_path fs (some (relStr p)) false = true
        ∧ AncOk fs [] p
        ∧ isReadableUnder es p := by
  rw [wfRoot] at hwf
  constructor
  · rintro ⟨s, hmem⟩
    obtain ⟨n, q, hp, hlook, hfil, hanc⟩ :=
      (mem_buildEntries fs es [] p s hwf).mp hmem
    rw [List.nil_append] at hp
    subst hp
    exact ⟨⟨some s, by simpa [lookupRoot] using hlook⟩, by simpa using hfil,
      hanc, ⟨s, by simpa [lookupRoot] using hlook⟩⟩
  · rintro ⟨⟨c, hfile⟩, hfil, hanc, s, hread⟩
    cases p with
    | nil => simp [lookupRoot] at hread
    | cons n q =>
      refine ⟨s, (mem_buildEntries fs es [] (n :: q) s hwf).mpr
        ⟨n, q, by simp, ?_, by simpa using hfil, hanc⟩⟩
      simpa [lookupRoot] using hread

/-- Witness for C1: in the demo tree with filters `*.txt`, `*.rs`,
`!target/`, the characterization holds at the path `src/y.rs`. -/
theorem build_keys_exact_witness :
    (∃ s, (["src", "y.rs"], s) ∈ buildEntries demoBuildFilters [] demoFS)
      ↔ isFileUnder demoFS ["src", "y.rs"]
        ∧ filter_path demoBuildFilters (some (relStr ["src", "y.rs"])) false = true
        ∧ AncOk demoBuildFilters [] ["src", "y.rs"]
        ∧ isReadableUnder demoFS ["src", "y.rs"] :=
  build_keys_exact demoBuildFilters demoFS (by decide) ["src", "y.rs"]

end Hanoi
